import Mathlib

/-!
Shallow embedding of the "condition" match extension for Xtables
(xt_condition.c): a per-network-namespace registry of named boolean
condition variables exposed through procfs, with reference-counted
attach (condition_mt_check) and detach (condition_mt_destroy),
a first-byte control-plane write (condition_proc_write), a read
(condition_proc_show), and the per-packet evaluator (condition_mt).

Machine integers: the refcount is an `unsigned int` in C; it is modelled
as `Nat` with exact arithmetic.  Wraparound of the C counter would need
2^32 simultaneously attached handles (each a live kernel rule), which is
outside the state space this model covers; in every reachable state of
the model the refcount equals the number of live handles.
-/

deriving instance DecidableEq for Except

namespace XtCondition

/-- The three module parameters, fixed at module load time:
`condition_list_perms` (mode bits of each proc node),
`condition_uid_perms` (owning uid), `condition_gid_perms` (owning gid). -/
structure ModParams where
  list_perms : Nat
  uid_perms : Nat
  gid_perms : Nat
deriving DecidableEq

/-- Module defaults from the source: `S_IRUGO | S_IWUSR` = 0644, uid 0, gid 0. -/
def defaultParams : ModParams := ⟨0o644, 0, 0⟩

/-- struct condition_variable: name, enabled flag, reference count.
The `list` head is the containing list, `status_proc` is tracked in the
registry's directory (`ProcNode`). -/
structure CondVar where
  name : String
  enabled : Bool
  refcount : Nat
deriving DecidableEq

/-- A proc directory entry created by `proc_create_data` + `proc_set_user`:
name, mode bits, owning uid and gid. -/
structure ProcNode where
  name : String
  mode : Nat
  uid : Nat
  gid : Nat
deriving DecidableEq

/-- struct condition_net: the per-namespace registry.  `conditions_list` is
the list of condition variables (list_add prepends).  `proc_net_condition`
is the root proc directory: `none` models a NULL pointer (torn down), and
`some nodes` models the directory together with its child entries. -/
structure CondNet where
  conditions_list : List CondVar
  proc_net_condition : Option (List ProcNode)
deriving DecidableEq

/-- Error returns of condition_mt_check: -EINVAL and -ENOMEM. -/
inductive CondErr where
  | einval
  | enomem
deriving DecidableEq

/-- Modelled from the spec: the name sanitizer.  The bound comes from
`xt_condition.h` (not under src/) — "bounded string (unique within
namespace, ≤31 bytes, no path separators, not \".\" or \"..\")" — and the
check itself is the kernel helper `xt_check_proc_name`, external to this
repository: a name is rejected when empty, longer than the bound,
containing a path separator, or equal to a reserved relative name.
Returns `true` when the name is allowed (the C helper returns 0). -/
def xt_check_proc_name (name : String) : Bool :=
  if name = "" then false
  else if 31 < name.length then false
  else if name.data.contains '/' then false
  else if name = "." ∨ name = ".." then false
  else true

/-- The `list_for_each_entry` search of condition_mt_check: first variable
in the list whose name compares equal (`strcmp` == 0). -/
def findVar : List CondVar → String → Option CondVar
  | [], _ => none
  | v :: vs, n => if v.name = n then some v else findVar vs n

/-- `var->refcount++` on the variable found by the search: increment the
first variable carrying the given name. -/
def incRefFirst : List CondVar → String → List CondVar
  | [], _ => []
  | v :: vs, n =>
    if v.name = n then { v with refcount := v.refcount + 1 } :: vs
    else v :: incRefFirst vs n

/-- Store a new refcount into the variable the handle points at (the first
variable carrying the given name). -/
def setRef : List CondVar → String → Nat → List CondVar
  | [], _, _ => []
  | v :: vs, n, r =>
    if v.name = n then { v with refcount := r } :: vs
    else v :: setRef vs n r

/-- `list_del` of the variable the handle points at: remove the first
variable carrying the given name. -/
def removeVar : List CondVar → String → List CondVar
  | [], _ => []
  | v :: vs, n => if v.name = n then vs else v :: removeVar vs n

/-- `remove_proc_entry(name, parent)`: remove the directory entry with the
given name (proc entry names are unique within a directory). -/
def removeNode : List ProcNode → String → List ProcNode
  | [], _ => []
  | nd :: nds, n => if nd.name = n then nds else nd :: removeNode nds n

/-- condition_proc_show: the read side of the control surface. -/
def condition_proc_show (var : CondVar) : String :=
  if var.enabled then "1\n" else "0\n"

/-- condition_proc_write: match only on the first character of the buffer;
'0' disables, '1' enables, anything else (or an empty buffer) is ignored.
The return value is always the full input length (ssize_t).
(The -EFAULT path exists only for an unreadable user pointer, i.e. when no
byte sequence is supplied at all; given an actual byte sequence `get_user`
succeeds.) -/
def condition_proc_write (var : CondVar) (buf : List Char) : CondVar × Int :=
  (match buf with
   | [] => var
   | c :: _ =>
     if c = '0' then { var with enabled := false }
     else if c = '1' then { var with enabled := true }
     else var,
   (buf.length : Int))

/-- condition_mt: the per-packet evaluator, `var->enabled ^ info->invert`. -/
def condition_mt (var : CondVar) (invert : Bool) : Bool :=
  xor var.enabled invert

/-- condition_mt_check (attach).  Returns the result — `.ok name` stands
for `info->condvar` being set to the (unique, by the registry invariant)
variable with that name — together with the registry state after the call.
`allocOk` is the oracle for the `kmalloc` outcome and `nodeOk` for the
`proc_create_data` outcome; `proc_create_data` also fails when an entry
with the same name already exists in the directory.  When
`proc_net_condition` is NULL, `proc_create_data` receives a NULL parent
and places the node at the top of the proc filesystem, outside the
directory this model tracks. -/
def condition_mt_check (p : ModParams) (cnet : CondNet) (name : String)
    (allocOk nodeOk : Bool) : Except CondErr String × CondNet :=
  if xt_check_proc_name name = false then (.error .einval, cnet)
  else
    match findVar cnet.conditions_list name with
    | some _ => (.ok name, { cnet with conditions_list := incRefFirst cnet.conditions_list name })
    | none =>
      if allocOk = false then (.error .enomem, cnet)
      else
        match cnet.proc_net_condition with
        | some nodes =>
          if nodeOk && !((nodes.map ProcNode.name).contains name) then
            (.ok name,
             { conditions_list := ⟨name, false, 1⟩ :: cnet.conditions_list,
               proc_net_condition :=
                 some (⟨name, p.list_perms, p.uid_perms, p.gid_perms⟩ :: nodes) })
          else (.error .enomem, cnet)
        | none =>
          if nodeOk then
            (.ok name, { cnet with conditions_list := ⟨name, false, 1⟩ :: cnet.conditions_list })
          else (.error .enomem, cnet)

/-- condition_mt_destroy (detach).  The handle denotes the variable the
rule's `info->condvar` points at: the first list entry with that name.
`--var->refcount == 0` removes the variable from the list, removes its
proc entry when the root directory still exists, and frees it. -/
def condition_mt_destroy (cnet : CondNet) (handle : String) : CondNet :=
  match findVar cnet.conditions_list handle with
  | none => cnet
  | some var =>
    if var.refcount - 1 = 0 then
      { conditions_list := removeVar cnet.conditions_list handle,
        proc_net_condition :=
          match cnet.proc_net_condition with
          | some nodes => some (removeNode nodes handle)
          | none => none }
    else
      { cnet with conditions_list := setRef cnet.conditions_list handle (var.refcount - 1) }

/-- condition_net_init: empty list and a freshly created root directory. -/
def condition_net_init : CondNet := ⟨[], some []⟩

/-- condition_net_exit: `remove_proc_subtree` removes the root directory
with all its children and the pointer is cleared to NULL. -/
def condition_net_exit (cnet : CondNet) : CondNet :=
  ⟨cnet.conditions_list, none⟩

/-! Trace semantics: sequences of attach and detach operations against one
namespace, tracking the multiset of live handles (one per installed rule). -/

/-- A namespace registry together with the live handles held by rules. -/
structure SysState where
  cnet : CondNet
  handles : List String
deriving DecidableEq

/-- One lifecycle operation.  The oracles of an attach record the outcome
of its allocations. -/
inductive Op where
  | attach (name : String) (allocOk nodeOk : Bool)
  | detach (handle : String)
deriving DecidableEq

/-- One step.  An attach records a new live handle exactly when it
succeeds.  A detach requires a live handle (the rule framework guarantees
one detach per successful attach; a stray detach is caller UB and is
rejected by the model). -/
def stepOp (p : ModParams) (s : SysState) : Op → Option SysState
  | .attach n a k =>
    match condition_mt_check p s.cnet n a k with
    | (.ok h, c) => some ⟨c, h :: s.handles⟩
    | (.error _, c) => some ⟨c, s.handles⟩
  | .detach h =>
    if h ∈ s.handles then some ⟨condition_mt_destroy s.cnet h, s.handles.erase h⟩
    else none

/-- Run a sequence of operations. -/
def runTrace (p : ModParams) (s : SysState) : List Op → Option SysState
  | [] => some s
  | op :: ops =>
    match stepOp p s op with
    | some t => runTrace p t ops
    | none => none

/-- State right after condition_net_init, before any rule is installed. -/
def initState : SysState := ⟨condition_net_init, []⟩

/-- The registry invariant: every variable's refcount equals the number of
live handles referencing it (and is ≥ 1, so a variable is present exactly
while some handle references it); every live handle references a present
variable; variable names are unique; and the root directory holds exactly
one control-surface node per variable, in matching order. -/
def inv (s : SysState) : Prop :=
  (∀ v ∈ s.cnet.conditions_list,
     v.refcount = s.handles.count v.name ∧ 1 ≤ v.refcount) ∧
  (∀ h ∈ s.handles, h ∈ s.cnet.conditions_list.map CondVar.name) ∧
  (s.cnet.conditions_list.map CondVar.name).Nodup ∧
  (∃ nds, s.cnet.proc_net_condition = some nds ∧
     nds.map ProcNode.name = s.cnet.conditions_list.map CondVar.name)

/-! Helper lemmas about the list operations. -/

theorem findVar_some {l : List CondVar} {n : String} {v : CondVar}
    (h : findVar l n = some v) : v ∈ l ∧ v.name = n := by
  induction l with
  | nil => simp [findVar] at h
  | cons w ws ih =>
    by_cases hw : w.name = n
    · simp only [findVar, if_pos hw] at h
      injection h with h
      subst h
      exact ⟨List.mem_cons_self _ _, hw⟩
    · simp only [findVar, if_neg hw] at h
      rcases ih h with ⟨hm, hn⟩
      exact ⟨List.mem_cons_of_mem _ hm, hn⟩

theorem findVar_eq_none {l : List CondVar} {n : String} :
    findVar l n = none ↔ n ∉ l.map CondVar.name := by
  induction l with
  | nil => simp [findVar]
  | cons w ws ih =>
    by_cases hw : w.name = n
    · simp [findVar, hw]
    · simp [findVar, hw, ih, Ne.symm hw]

theorem map_name_incRefFirst (l : List CondVar) (n : String) :
    (incRefFirst l n).map CondVar.name = l.map CondVar.name := by
  induction l with
  | nil => rfl
  | cons w ws ih =>
    by_cases hw : w.name = n
    · simp [incRefFirst, hw]
    · simp [incRefFirst, hw, ih]

theorem map_name_setRef (l : List CondVar) (n : String) (r : Nat) :
    (setRef l n r).map CondVar.name = l.map CondVar.name := by
  induction l with
  | nil => rfl
  | cons w ws ih =>
    by_cases hw : w.name = n
    · simp [setRef, hw]
    · simp [setRef, hw, ih]

theorem findVar_incRefFirst {l : List CondVar} {n : String} {v : CondVar}
    (h : findVar l n = some v) :
    findVar (incRefFirst l n) n = some { v with refcount := v.refcount + 1 } := by
  induction l with
  | nil => simp [findVar] at h
  | cons w ws ih =>
    by_cases hw : w.name = n
    · simp only [findVar, if_pos hw] at h
      injection h with h
      subst h
      simp [incRefFirst, findVar, hw]
    · simp only [findVar, if_neg hw] at h
      simp [incRefFirst, findVar, hw, ih h]

theorem setRef_incRefFirst {l : List CondVar} {n : String} {v : CondVar}
    (h : findVar l n = some v) :
    setRef (incRefFirst l n) n v.refcount = l := by
  induction l with
  | nil => simp [findVar] at h
  | cons w ws ih =>
    by_cases hw : w.name = n
    · subst hw
      simp only [findVar, if_pos rfl] at h
      injection h with h
      subst h
      simp [incRefFirst, setRef]
    · simp only [findVar, if_neg hw] at h
      simp [incRefFirst, setRef, hw, ih h]

theorem findVar_setRef {l : List CondVar} {n : String} {v : CondVar} (r : Nat)
    (h : findVar l n = some v) :
    findVar (setRef l n r) n = some { v with refcount := r } := by
  induction l with
  | nil => simp [findVar] at h
  | cons w ws ih =>
    by_cases hw : w.name = n
    · simp only [findVar, if_pos hw] at h
      injection h with h
      subst h
      simp [setRef, findVar, hw]
    · simp only [findVar, if_neg hw] at h
      simp [setRef, findVar, hw, ih h]

theorem map_name_removeVar (l : List CondVar) (n : String) :
    (removeVar l n).map CondVar.name = (l.map CondVar.name).erase n := by
  induction l with
  | nil => rfl
  | cons w ws ih =>
    by_cases hw : w.name = n
    · simp [removeVar, hw, List.erase_cons]
    · simp [removeVar, hw, List.erase_cons, ih]

theorem map_name_removeNode (nds : List ProcNode) (n : String) :
    (removeNode nds n).map ProcNode.name = (nds.map ProcNode.name).erase n := by
  induction nds with
  | nil => rfl
  | cons w ws ih =>
    by_cases hw : w.name = n
    · simp [removeNode, hw, List.erase_cons]
    · simp [removeNode, hw, List.erase_cons, ih]

theorem removeVar_subset {l : List CondVar} {n : String} :
    ∀ w ∈ removeVar l n, w ∈ l := by
  induction l with
  | nil => simp [removeVar]
  | cons w ws ih =>
    by_cases hw : w.name = n
    · simp only [removeVar, if_pos hw]
      exact fun x hx => List.mem_cons_of_mem _ hx
    · simp only [removeVar, if_neg hw]
      intro x hx
      rcases List.mem_cons.mp hx with h | h
      · exact h ▸ List.mem_cons_self _ _
      · exact List.mem_cons_of_mem _ (ih x h)

theorem mem_removeVar_of_ne {l : List CondVar} {n : String} {v : CondVar}
    (hm : v ∈ l) (hne : v.name ≠ n) : v ∈ removeVar l n := by
  induction l with
  | nil => simp at hm
  | cons w ws ih =>
    rcases List.mem_cons.mp hm with h | h
    · subst h
      simp [removeVar, hne]
    · by_cases hw : w.name = n
      · simpa [removeVar, hw] using h
      · simp only [removeVar, if_neg hw]
        exact List.mem_cons_of_mem _ (ih h)

theorem mem_incRefFirst_nodup {l : List CondVar} {n : String} {v : CondVar}
    (hnd : (l.map CondVar.name).Nodup) (h : findVar l n = some v) :
    ∀ w ∈ incRefFirst l n,
      w = { v with refcount := v.refcount + 1 } ∨ (w ∈ l ∧ w.name ≠ n) := by
  induction l with
  | nil => simp [findVar] at h
  | cons w0 ws ih =>
    by_cases hw : w0.name = n
    · simp only [findVar, if_pos hw] at h
      injection h with h
      subst h
      simp only [incRefFirst, if_pos hw]
      intro w hw2
      rcases List.mem_cons.mp hw2 with h2 | h2
      · exact Or.inl h2
      · refine Or.inr ⟨List.mem_cons_of_mem _ h2, ?_⟩
        have hn0 : w0.name ∉ ws.map CondVar.name := (List.nodup_cons.mp hnd).1
        intro hcon
        exact hn0 (hw ▸ hcon ▸ List.mem_map_of_mem CondVar.name h2)
    · simp only [findVar, if_neg hw] at h
      simp only [incRefFirst, if_neg hw]
      intro w hw2
      rcases List.mem_cons.mp hw2 with h2 | h2
      · exact Or.inr ⟨h2 ▸ List.mem_cons_self _ _, h2 ▸ hw⟩
      · rcases ih (List.nodup_cons.mp hnd).2 h w h2 with h3 | ⟨h3, h4⟩
        · exact Or.inl h3
        · exact Or.inr ⟨List.mem_cons_of_mem _ h3, h4⟩

theorem mem_setRef_nodup {l : List CondVar} {n : String} {v : CondVar} {r : Nat}
    (hnd : (l.map CondVar.name).Nodup) (h : findVar l n = some v) :
    ∀ w ∈ setRef l n r,
      w = { v with refcount := r } ∨ (w ∈ l ∧ w.name ≠ n) := by
  induction l with
  | nil => simp [findVar] at h
  | cons w0 ws ih =>
    by_cases hw : w0.name = n
    · simp only [findVar, if_pos hw] at h
      injection h with h
      subst h
      simp only [setRef, if_pos hw]
      intro w hw2
      rcases List.mem_cons.mp hw2 with h2 | h2
      · exact Or.inl h2
      · refine Or.inr ⟨List.mem_cons_of_mem _ h2, ?_⟩
        have hn0 : w0.name ∉ ws.map CondVar.name := (List.nodup_cons.mp hnd).1
        intro hcon
        exact hn0 (hw ▸ hcon ▸ List.mem_map_of_mem CondVar.name h2)
    · simp only [findVar, if_neg hw] at h
      simp only [setRef, if_neg hw]
      intro w hw2
      rcases List.mem_cons.mp hw2 with h2 | h2
      · exact Or.inr ⟨h2 ▸ List.mem_cons_self _ _, h2 ▸ hw⟩
      · rcases ih (List.nodup_cons.mp hnd).2 h w h2 with h3 | ⟨h3, h4⟩
        · exact Or.inl h3
        · exact Or.inr ⟨List.mem_cons_of_mem _ h3, h4⟩

theorem mem_removeVar_nodup {l : List CondVar} {n : String}
    (hnd : (l.map CondVar.name).Nodup) :
    ∀ w ∈ removeVar l n, w ∈ l ∧ w.name ≠ n := by
  intro w hw
  refine ⟨removeVar_subset w hw, ?_⟩
  have hmem : w.name ∈ (removeVar l n).map CondVar.name := List.mem_map_of_mem _ hw
  rw [map_name_removeVar] at hmem
  exact (hnd.mem_erase_iff.mp hmem).1

/-! Branch characterizations of condition_mt_check. -/

theorem check_einval {p : ModParams} {c : CondNet} {n : String} {a k : Bool}
    (h : xt_check_proc_name n = false) :
    condition_mt_check p c n a k = (.error .einval, c) := by
  simp [condition_mt_check, h]

theorem check_found {p : ModParams} {c : CondNet} {n : String} {a k : Bool} {v : CondVar}
    (hn : xt_check_proc_name n = true)
    (hf : findVar c.conditions_list n = some v) :
    condition_mt_check p c n a k =
      (.ok n, { c with conditions_list := incRefFirst c.conditions_list n }) := by
  simp [condition_mt_check, hn, hf]

theorem check_alloc_fail {p : ModParams} {c : CondNet} {n : String} {k : Bool}
    (hn : xt_check_proc_name n = true)
    (hf : findVar c.conditions_list n = none) :
    condition_mt_check p c n false k = (.error .enomem, c) := by
  simp [condition_mt_check, hn, hf]

theorem check_node_fail {p : ModParams} {c : CondNet} {n : String}
    (hn : xt_check_proc_name n = true)
    (hf : findVar c.conditions_list n = none) :
    condition_mt_check p c n true false = (.error .enomem, c) := by
  cases hp : c.proc_net_condition with
  | none => simp [condition_mt_check, hn, hf, hp]
  | some nds => simp [condition_mt_check, hn, hf, hp]

theorem check_fresh_ok {p : ModParams} {c : CondNet} {n : String} {nds : List ProcNode}
    (hn : xt_check_proc_name n = true)
    (hf : findVar c.conditions_list n = none)
    (hp : c.proc_net_condition = some nds)
    (hnode : ((nds.map ProcNode.name).contains n) = false) :
    condition_mt_check p c n true true =
      (.ok n, ⟨⟨n, false, 1⟩ :: c.conditions_list,
               some (⟨n, p.list_perms, p.uid_perms, p.gid_perms⟩ :: nds)⟩) := by
  simp only [condition_mt_check, hn, hf, hp, hnode]
  simp [hnode]

theorem check_fresh_noroot_ok {p : ModParams} {c : CondNet} {n : String}
    (hn : xt_check_proc_name n = true)
    (hf : findVar c.conditions_list n = none)
    (hp : c.proc_net_condition = none) :
    condition_mt_check p c n true true =
      (.ok n, { c with conditions_list := ⟨n, false, 1⟩ :: c.conditions_list }) := by
  simp [condition_mt_check, hn, hf, hp]

theorem check_error_state {p : ModParams} {c : CondNet} {n : String} {a k : Bool}
    {e : CondErr} {c' : CondNet}
    (h : condition_mt_check p c n a k = (.error e, c')) : c' = c := by
  unfold condition_mt_check at h
  repeat' split at h
  all_goals injection h with h1 h2
  all_goals first
    | exact h2.symm
    | exact Except.noConfusion h1

theorem check_ok_state {p : ModParams} {c : CondNet} {n : String} {a k : Bool}
    {hdl : String} {c' : CondNet}
    (h : condition_mt_check p c n a k = (.ok hdl, c')) :
    hdl = n ∧ xt_check_proc_name n = true ∧
      ((∃ v, findVar c.conditions_list n = some v ∧
          c' = { c with conditions_list := incRefFirst c.conditions_list n }) ∨
       (findVar c.conditions_list n = none ∧
        ∃ nds, c.proc_net_condition = some nds ∧
          ((nds.map ProcNode.name).contains n) = false ∧
          c' = ⟨⟨n, false, 1⟩ :: c.conditions_list,
                some (⟨n, p.list_perms, p.uid_perms, p.gid_perms⟩ :: nds)⟩) ∨
       (findVar c.conditions_list n = none ∧ c.proc_net_condition = none ∧
          c' = { c with conditions_list := ⟨n, false, 1⟩ :: c.conditions_list })) := by
  unfold condition_mt_check at h
  split at h
  · exact absurd (Prod.mk.injEq .. ▸ h).1 (by simp)
  · rename_i hvalid
    rw [Bool.not_eq_false] at hvalid
    split at h
    · rename_i v hf
      injection h with h1 h2
      injection h1 with h1
      exact ⟨h1.symm, hvalid, Or.inl ⟨v, hf, h2.symm⟩⟩
    · rename_i hf
      split at h
      · exact absurd (Prod.mk.injEq .. ▸ h).1 (by simp)
      · rename_i ha
        rw [Bool.not_eq_false] at ha
        subst ha
        split at h
        · rename_i nds hp
          split at h
          · rename_i hguard
            injection h with h1 h2
            injection h1 with h1
            rw [Bool.and_eq_true, Bool.not_eq_true'] at hguard
            exact ⟨h1.symm, hvalid,
              Or.inr (Or.inl ⟨hf, nds, hp, hguard.2, h2.symm⟩)⟩
          · exact absurd (Prod.mk.injEq .. ▸ h).1 (by simp)
        · rename_i hp
          split at h
          · rename_i hk
            injection h with h1 h2
            injection h1 with h1
            exact ⟨h1.symm, hvalid, Or.inr (Or.inr ⟨hf, hp, h2.symm⟩)⟩
          · exact absurd (Prod.mk.injEq .. ▸ h).1 (by simp)

/-! Preservation of the registry invariant by each lifecycle step. -/

theorem inv_stepOp {p : ModParams} {s s' : SysState} {op : Op}
    (hinv : inv s) (hstep : stepOp p s op = some s') : inv s' := by
  obtain ⟨hc, hh, hnd, nds, hroot, hmap⟩ := hinv
  cases op with
  | attach n a k =>
    rcases hres : condition_mt_check p s.cnet n a k with ⟨r, cnew⟩
    cases r with
    | error e =>
      have hsame : cnew = s.cnet := check_error_state hres
      subst hsame
      simp only [stepOp, hres] at hstep
      injection hstep with hstep
      subst hstep
      exact ⟨hc, hh, hnd, nds, hroot, hmap⟩
    | ok hdl =>
      simp only [stepOp, hres] at hstep
      injection hstep with hstep
      subst hstep
      obtain ⟨hhn, hvalid, hcases⟩ := check_ok_state hres
      subst hhn
      rcases hcases with ⟨v, hf, hceq⟩ | ⟨hf, nds2, hp2, hcol, hceq⟩ | ⟨hf, hp2, hceq⟩
      · -- the name was found: refcount increment
        subst hceq
        obtain ⟨hvmem, hvname⟩ := findVar_some hf
        refine ⟨?_, ?_, ?_, nds, hroot, ?_⟩
        · intro w hw
          rcases mem_incRefFirst_nodup hnd hf w hw with hweq | ⟨hwl, hwne⟩
          · subst hweq
            have hvc := hc v hvmem
            rw [hvname] at hvc
            simp only
            rw [hvname, List.count_cons_self]
            omega
          · rw [List.count_cons_of_ne hwne]
            exact hc w hwl
        · intro h2 hmem
          rw [map_name_incRefFirst]
          rcases List.mem_cons.mp hmem with h3 | h3
          · subst h3
            exact hvname ▸ List.mem_map_of_mem CondVar.name hvmem
          · exact hh h2 h3
        · rw [map_name_incRefFirst]
          exact hnd
        · rw [map_name_incRefFirst]
          exact hmap
      · -- fresh name, root directory present: new variable and new node
        rw [hroot] at hp2
        injection hp2 with hp2
        subst hp2
        subst hceq
        have hnotin : hdl ∉ s.cnet.conditions_list.map CondVar.name := findVar_eq_none.mp hf
        have hnothandle : hdl ∉ s.handles := fun hmem => hnotin (hh hdl hmem)
        refine ⟨?_, ?_, ?_, ⟨hdl, p.list_perms, p.uid_perms, p.gid_perms⟩ :: nds, rfl, ?_⟩
        · intro w hw
          rcases List.mem_cons.mp hw with hweq | hwl
          · subst hweq
            simp only
            rw [List.count_cons_self, List.count_eq_zero.mpr hnothandle]
            exact ⟨rfl, le_refl 1⟩
          · have hwne : w.name ≠ hdl := fun hcon =>
              hnotin (hcon ▸ List.mem_map_of_mem CondVar.name hwl)
            rw [List.count_cons_of_ne hwne]
            exact hc w hwl
        · intro h2 hmem
          simp only [List.map_cons]
          rcases List.mem_cons.mp hmem with h3 | h3
          · subst h3
            exact List.mem_cons_self _ _
          · exact List.mem_cons_of_mem _ (hh h2 h3)
        · simp only [List.map_cons]
          exact List.nodup_cons.mpr ⟨hnotin, hnd⟩
        · simp only [List.map_cons]
          rw [hmap]
      · -- fresh name with a NULL root: unreachable given the invariant
        rw [hroot] at hp2
        cases hp2
  | detach hdl =>
    simp only [stepOp] at hstep
    split at hstep
    case isFalse => cases hstep
    case isTrue hmem =>
      injection hstep with hstep
      subst hstep
      have hin : hdl ∈ s.cnet.conditions_list.map CondVar.name := hh hdl hmem
      obtain ⟨v, hf⟩ : ∃ w, findVar s.cnet.conditions_list hdl = some w := by
        cases hfv : findVar s.cnet.conditions_list hdl with
        | none => exact absurd hin (findVar_eq_none.mp hfv)
        | some w => exact ⟨w, rfl⟩
      obtain ⟨hvmem, hvname⟩ := findVar_some hf
      obtain ⟨hvcount, hvpos⟩ := hc v hvmem
      rw [hvname] at hvcount
      by_cases hz : v.refcount - 1 = 0
      · -- the last handle: the variable and its node are removed
        have hdeq : condition_mt_destroy s.cnet hdl =
            ⟨removeVar s.cnet.conditions_list hdl, some (removeNode nds hdl)⟩ := by
          simp [condition_mt_destroy, hf, hz, hroot]
        rw [hdeq]
        have hcnt1 : s.handles.count hdl = 1 := by omega
        have hnotafter : hdl ∉ s.handles.erase hdl := by
          rw [← List.count_eq_zero, List.count_erase_self, hcnt1]
        refine ⟨?_, ?_, ?_, removeNode nds hdl, rfl, ?_⟩
        · intro w hw
          obtain ⟨hwl, hwne⟩ := mem_removeVar_nodup hnd w hw
          rw [List.count_erase_of_ne hwne]
          exact hc w hwl
        · intro h2 hmem2
          have h3 : h2 ∈ s.handles := List.mem_of_mem_erase hmem2
          have h4 : h2 ≠ hdl := fun hcon => hnotafter (hcon ▸ hmem2)
          rw [map_name_removeVar]
          exact hnd.mem_erase_iff.mpr ⟨h4, hh h2 h3⟩
        · rw [map_name_removeVar]
          exact hnd.erase hdl
        · rw [map_name_removeNode, map_name_removeVar, hmap]
      · -- other handles remain: only the refcount is decremented
        have hdeq : condition_mt_destroy s.cnet hdl =
            { s.cnet with
              conditions_list := setRef s.cnet.conditions_list hdl (v.refcount - 1) } := by
          simp [condition_mt_destroy, hf, hz]
        rw [hdeq]
        refine ⟨?_, ?_, ?_, nds, hroot, ?_⟩
        · intro w hw
          rcases mem_setRef_nodup hnd hf w hw with hweq | ⟨hwl, hwne⟩
          · subst hweq
            simp only
            rw [hvname, List.count_erase_self, ← hvcount]
            omega
          · rw [List.count_erase_of_ne hwne]
            exact hc w hwl
        · intro h2 hmem2
          rw [map_name_setRef]
          exact hh h2 (List.mem_of_mem_erase hmem2)
        · rw [map_name_setRef]
          exact hnd
        · rw [map_name_setRef]
          exact hmap

theorem inv_runTrace {p : ModParams} {ops : List Op} :
    ∀ {s s' : SysState}, inv s → runTrace p s ops = some s' → inv s' := by
  induction ops with
  | nil =>
    intro s s' hinv h
    simp only [runTrace] at h
    injection h with h
    exact h ▸ hinv
  | cons op ops ih =>
    intro s s' hinv h
    simp only [runTrace] at h
    cases hst : stepOp p s op with
    | none =>
      simp only [hst] at h
      cases h
    | some t =>
      simp only [hst] at h
      exact ih (inv_stepOp hinv hst) h

theorem inv_initState : inv initState := by
  refine ⟨?_, ?_, ?_, [], rfl, rfl⟩ <;> simp [initState, condition_net_init]

theorem destroy_last {c : CondNet} {hdl : String} {v : CondVar}
    (hf : findVar c.conditions_list hdl = some v) (hz : v.refcount - 1 = 0) :
    condition_mt_destroy c hdl =
      ⟨removeVar c.conditions_list hdl,
       match c.proc_net_condition with
       | some nds => some (removeNode nds hdl)
       | none => none⟩ := by
  simp [condition_mt_destroy, hf, hz]

theorem destroy_dec {c : CondNet} {hdl : String} {v : CondVar}
    (hf : findVar c.conditions_list hdl = some v) (hz : v.refcount - 1 ≠ 0) :
    condition_mt_destroy c hdl =
      { c with conditions_list := setRef c.conditions_list hdl (v.refcount - 1) } := by
  simp [condition_mt_destroy, hf, hz]

theorem findVar_removeVar_self {l : List CondVar} {n : String}
    (hnd : (l.map CondVar.name).Nodup) : findVar (removeVar l n) n = none := by
  rw [findVar_eq_none, map_name_removeVar]
  intro hmem
  exact (hnd.mem_erase_iff.mp hmem).1 rfl

/-! The claims. -/

/-- C1: in every state reachable from an initialized namespace by attach and
detach operations, each condition variable's refcount equals the number of
currently-attached handles referencing it, a variable occupies the registry
collection exactly while some handle references it, and the control-surface
directory holds exactly one node per variable; moreover a detach removes the
detached variable from the collection exactly when it releases the last
(count 1) handle — never earlier, never later. -/
theorem registry_refcount_invariant (p : ModParams) (ops : List Op) (s : SysState)
    (h : runTrace p initState ops = some s) :
    inv s ∧
    (∀ hdl s', stepOp p s (.detach hdl) = some s' →
      (findVar s'.cnet.conditions_list hdl = none ↔ s.handles.count hdl = 1)) := by
  have hinv : inv s := inv_runTrace inv_initState h
  refine ⟨hinv, ?_⟩
  intro hdl s' hstep
  obtain ⟨hc, hh, hnd, nds, hroot, hmap⟩ := hinv
  simp only [stepOp] at hstep
  split at hstep
  case isFalse => cases hstep
  case isTrue hmem =>
    injection hstep with hstep
    subst hstep
    have hin : hdl ∈ s.cnet.conditions_list.map CondVar.name := hh hdl hmem
    obtain ⟨v, hf⟩ : ∃ w, findVar s.cnet.conditions_list hdl = some w := by
      cases hfv : findVar s.cnet.conditions_list hdl with
      | none => exact absurd hin (findVar_eq_none.mp hfv)
      | some w => exact ⟨w, rfl⟩
    obtain ⟨hvmem, hvname⟩ := findVar_some hf
    obtain ⟨hvcount, hvpos⟩ := hc v hvmem
    rw [hvname] at hvcount
    by_cases hz : v.refcount - 1 = 0
    · have hd := destroy_last hf hz
      constructor
      · intro _
        omega
      · intro _
        rw [hd]
        exact findVar_removeVar_self hnd
    · have hd := destroy_dec hf hz
      have h2 : findVar (condition_mt_destroy s.cnet hdl).conditions_list hdl =
          some { v with refcount := v.refcount - 1 } := by
        rw [hd]
        exact findVar_setRef _ hf
      constructor
      · intro hnone
        rw [h2] at hnone
        cases hnone
      · intro hcnt
        exact absurd (by omega : v.refcount - 1 = 0) hz

/-- C1 witness: a concrete trace — two attaches of "foo" and one detach —
reaches a state satisfying the invariant, and in that state a detach of the
last remaining handle removes the variable. -/
theorem registry_refcount_invariant_witness :
    inv ⟨⟨[⟨"foo", false, 1⟩], some [⟨"foo", 0o644, 0, 0⟩]⟩, ["foo"]⟩ ∧
    (findVar ([] : List CondVar) "foo" = none ↔ List.count "foo" ["foo"] = 1) :=
  ⟨(registry_refcount_invariant defaultParams
      [.attach "foo" true true, .attach "foo" true true, .detach "foo"]
      ⟨⟨[⟨"foo", false, 1⟩], some [⟨"foo", 0o644, 0, 0⟩]⟩, ["foo"]⟩ (by decide)).1,
   (registry_refcount_invariant defaultParams
      [.attach "foo" true true, .attach "foo" true true, .detach "foo"]
      ⟨⟨[⟨"foo", false, 1⟩], some [⟨"foo", 0o644, 0, 0⟩]⟩, ["foo"]⟩ (by decide)).2
     "foo" ⟨⟨[], some []⟩, []⟩ (by decide)⟩

/-- C2: for every registry state whose variables all carry a positive
refcount (the data-model invariant), a successful attach followed
immediately by detach of the returned handle restores the registry exactly:
variable collection, every pre-existing refcount, and the set of
control-surface nodes. -/
theorem attach_detach_restores (p : ModParams) (c c' : CondNet) (n hdl : String)
    (a k : Bool)
    (hwf : ∀ v ∈ c.conditions_list, 1 ≤ v.refcount)
    (hok : condition_mt_check p c n a k = (.ok hdl, c')) :
    condition_mt_destroy c' hdl = c := by
  obtain ⟨hhn, hvalid, hcases⟩ := check_ok_state hok
  subst hhn
  rcases hcases with ⟨v, hf, hceq⟩ | ⟨hf, nds, hp, hcol, hceq⟩ | ⟨hf, hp, hceq⟩
  · -- pre-existing variable: the increment is undone, nothing is removed
    subst hceq
    obtain ⟨hvmem, hvname⟩ := findVar_some hf
    have hf2 : findVar (incRefFirst c.conditions_list hdl) hdl =
        some { v with refcount := v.refcount + 1 } := findVar_incRefFirst hf
    have hz : ({ v with refcount := v.refcount + 1 } : CondVar).refcount - 1 ≠ 0 := by
      have := hwf v hvmem
      simp only
      omega
    rw [destroy_dec hf2 hz]
    simp only [Nat.add_sub_cancel]
    rw [setRef_incRefFirst hf]
  · -- fresh variable: it and its node are removed again
    subst hceq
    have hd : condition_mt_destroy
        ⟨⟨hdl, false, 1⟩ :: c.conditions_list,
         some (⟨hdl, p.list_perms, p.uid_perms, p.gid_perms⟩ :: nds)⟩ hdl =
        ⟨c.conditions_list, some nds⟩ := by
      simp [condition_mt_destroy, findVar, removeVar, removeNode]
    rw [hd, ← hp]
  · -- fresh variable with a NULL root: the variable is removed again
    subst hceq
    have hd : condition_mt_destroy
        { c with conditions_list := ⟨hdl, false, 1⟩ :: c.conditions_list } hdl =
        ⟨c.conditions_list, c.proc_net_condition⟩ := by
      simp [condition_mt_destroy, findVar, removeVar, hp]
    rw [hd]

/-- C2 witness: attaching "bar" to a registry already holding it at
refcount 3, then detaching, restores the original registry. -/
theorem attach_detach_restores_witness :
    condition_mt_destroy ⟨[⟨"bar", true, 4⟩], some [⟨"bar", 0o644, 0, 0⟩]⟩ "bar" =
      ⟨[⟨"bar", true, 3⟩], some [⟨"bar", 0o644, 0, 0⟩]⟩ :=
  attach_detach_restores defaultParams
    ⟨[⟨"bar", true, 3⟩], some [⟨"bar", 0o644, 0, 0⟩]⟩
    ⟨[⟨"bar", true, 4⟩], some [⟨"bar", 0o644, 0, 0⟩]⟩
    "bar" "bar" true true (by decide) (by decide)

/-- C3: attaching a name that already has a variable (exact, case-sensitive
string comparison) succeeds with a handle to that same variable, increments
its refcount by one, and creates neither a variable nor a node (name list
and directory unchanged); in particular two attaches of "foo" on a fresh
namespace leave one variable with refcount 2 and two handles. -/
theorem attach_existing_shares_variable (p : ModParams) (c : CondNet) (n : String)
    (a k : Bool) (v : CondVar)
    (hn : xt_check_proc_name n = true)
    (hf : findVar c.conditions_list n = some v) :
    condition_mt_check p c n a k =
      (.ok n, { c with conditions_list := incRefFirst c.conditions_list n }) ∧
    findVar (incRefFirst c.conditions_list n) n =
      some { v with refcount := v.refcount + 1 } ∧
    (incRefFirst c.conditions_list n).map CondVar.name =
      c.conditions_list.map CondVar.name ∧
    runTrace defaultParams initState
        [.attach "foo" true true, .attach "foo" true true] =
      some ⟨⟨[⟨"foo", false, 2⟩], some [⟨"foo", 0o644, 0, 0⟩]⟩, ["foo", "foo"]⟩ :=
  ⟨check_found hn hf, findVar_incRefFirst hf, map_name_incRefFirst .., by decide⟩

/-- C3 witness: attaching "foo" to a registry holding it at refcount 1. -/
theorem attach_existing_shares_variable_witness :
    condition_mt_check defaultParams ⟨[⟨"foo", false, 1⟩], some [⟨"foo", 0o644, 0, 0⟩]⟩
        "foo" true true =
      (.ok "foo",
       { (⟨[⟨"foo", false, 1⟩], some [⟨"foo", 0o644, 0, 0⟩]⟩ : CondNet) with
         conditions_list :=
           incRefFirst [⟨"foo", false, 1⟩] "foo" }) :=
  (attach_existing_shares_variable defaultParams
    ⟨[⟨"foo", false, 1⟩], some [⟨"foo", 0o644, 0, 0⟩]⟩ "foo" true true
    ⟨"foo", false, 1⟩ (by decide) (by decide)).1

/-- C4: attaching a valid fresh name when allocation and node creation
succeed creates exactly one new variable with enabled = false and
refcount = 1, prepends it to the collection, creates exactly one node under
the root directory carrying the configured mode, uid and gid parameters,
and returns a handle to the new variable. -/
theorem attach_fresh_creates (p : ModParams) (c : CondNet) (n : String)
    (nds : List ProcNode)
    (hn : xt_check_proc_name n = true)
    (hf : findVar c.conditions_list n = none)
    (hp : c.proc_net_condition = some nds)
    (hnode : ((nds.map ProcNode.name).contains n) = false) :
    condition_mt_check p c n true true =
      (.ok n, ⟨⟨n, false, 1⟩ :: c.conditions_list,
               some (⟨n, p.list_perms, p.uid_perms, p.gid_perms⟩ :: nds)⟩) :=
  check_fresh_ok hn hf hp hnode

/-- C4 witness: attaching "gate" to an initialized empty namespace. -/
theorem attach_fresh_creates_witness :
    condition_mt_check defaultParams ⟨[], some []⟩ "gate" true true =
      (.ok "gate", ⟨[⟨"gate", false, 1⟩], some [⟨"gate", 0o644, 0, 0⟩]⟩) :=
  attach_fresh_creates defaultParams ⟨[], some []⟩ "gate" []
    (by decide) (by decide) (by decide) (by decide)

/-- C5: when the variable allocation or the node creation fails during an
attach for a fresh name, attach returns -ENOMEM and the registry is exactly
the state before the call: the partial allocation is discarded, nothing is
inserted, and no node remains. -/
theorem attach_failure_no_partial_state (p : ModParams) (c : CondNet) (n : String)
    (a k : Bool)
    (hn : xt_check_proc_name n = true)
    (hf : findVar c.conditions_list n = none)
    (hfail : a = false ∨ k = false) :
    condition_mt_check p c n a k = (.error .enomem, c) := by
  rcases hfail with hfl | hfl
  · subst hfl
    exact check_alloc_fail hn hf
  · subst hfl
    cases a with
    | false => exact check_alloc_fail hn hf
    | true => exact check_node_fail hn hf

/-- C5 witness: a failing node creation for the fresh name "gate" leaves an
initialized empty namespace untouched. -/
theorem attach_failure_no_partial_state_witness :
    condition_mt_check defaultParams ⟨[], some []⟩ "gate" true false =
      (.error .enomem, ⟨[], some []⟩) :=
  attach_failure_no_partial_state defaultParams ⟨[], some []⟩ "gate" true false
    (by decide) (by decide) (Or.inr rfl)

/-- C6: the control-plane write inspects only the first byte: '0' disables,
'1' enables, any other first byte or empty input changes nothing; the name
and refcount are untouched; and the call always returns the full input
length (hence never a negative error code). -/
theorem write_first_byte_semantics (var : CondVar) (buf : List Char) :
    (condition_proc_write var buf).2 = (buf.length : Int) ∧
    0 ≤ (condition_proc_write var buf).2 ∧
    (condition_proc_write var buf).1.name = var.name ∧
    (condition_proc_write var buf).1.refcount = var.refcount ∧
    (condition_proc_write var buf).1.enabled =
      (match buf with
       | [] => var.enabled
       | c :: _ => if c = '0' then false else if c = '1' then true else var.enabled) := by
  cases buf with
  | nil => simp [condition_proc_write]
  | cons ch rest =>
    by_cases h0 : ch = '0'
    · simp [condition_proc_write, h0]
      omega
    · by_cases h1 : ch = '1'
      · simp [condition_proc_write, h0, h1]
        omega
      · simp [condition_proc_write, h0, h1]
        omega

/-- C7: the evaluator returns enabled XOR invert; after write "1" it
answers true/false for invert false/true and after write "0" both flip;
the control-surface read renders "1\n" when enabled and "0\n" when not. -/
theorem evaluate_xor_and_read (var : CondVar) (invert : Bool) :
    condition_mt var invert = xor var.enabled invert ∧
    condition_mt ((condition_proc_write var ['1']).1) false = true ∧
    condition_mt ((condition_proc_write var ['1']).1) true = false ∧
    condition_mt ((condition_proc_write var ['0']).1) false = false ∧
    condition_mt ((condition_proc_write var ['0']).1) true = true ∧
    condition_proc_show var = (if var.enabled then "1\n" else "0\n") := by
  refine ⟨rfl, ?_, ?_, ?_, ?_, rfl⟩ <;> simp [condition_mt, condition_proc_write]

/-- C8: a name failing the sanitizer — empty, longer than the bound,
containing '/', or equal to "." or ".." — makes attach fail with -EINVAL
and leaves the registry state exactly unchanged. -/
theorem attach_invalid_name_unchanged (p : ModParams) (c : CondNet) (n : String)
    (a k : Bool)
    (hbad : n = "" ∨ 31 < n.length ∨ n.data.contains '/' = true ∨ n = "." ∨ n = "..") :
    condition_mt_check p c n a k = (.error .einval, c) := by
  apply check_einval
  unfold xt_check_proc_name
  split_ifs with h1 h2 h3 h4
  · rfl
  · rfl
  · rfl
  · rfl
  · rcases hbad with h | h | h | h | h
    · exact absurd h h1
    · exact absurd h h2
    · exact absurd h (by simpa using h3)
    · exact absurd (Or.inl h) h4
    · exact absurd (Or.inr h) h4

/-- C8 witness: the reserved name ".." is rejected and an initialized empty
registry is left unchanged. -/
theorem attach_invalid_name_unchanged_witness :
    condition_mt_check defaultParams ⟨[], some []⟩ ".." true true =
      (.error .einval, ⟨[], some []⟩) :=
  attach_invalid_name_unchanged defaultParams ⟨[], some []⟩ ".." true true
    (by decide)

/-- C9 counterexample: with the root directory gone (NULL, as after
teardown), attach of the already-present name "foo" does not fail — it
succeeds with a handle and increments the refcount, changing the registry
state, so no NamespaceUnavailable-style hard failure exists in the code. -/
theorem attach_without_root_counterexample :
    condition_mt_check defaultParams ⟨[⟨"foo", false, 1⟩], none⟩ "foo" true true =
      (.ok "foo", ⟨[⟨"foo", false, 2⟩], none⟩) ∧
    (⟨[⟨"foo", false, 2⟩], none⟩ : CondNet) ≠ ⟨[⟨"foo", false, 1⟩], none⟩ := by
  decide

/-- C9 (amended): condition_mt_check never tests whether the root directory
exists; invoked against a registry whose root directory pointer is NULL it
proceeds exactly as usual — for a name already in the collection it
succeeds, increments that refcount and returns a handle (only namespace
initialization itself reports the missing root directory, as -EACCES). -/
theorem attach_ignores_missing_root (p : ModParams) (c : CondNet) (n : String)
    (a k : Bool) (v : CondVar)
    (_hroot : c.proc_net_condition = none)
    (hn : xt_check_proc_name n = true)
    (hf : findVar c.conditions_list n = some v) :
    condition_mt_check p c n a k =
      (.ok n, { c with conditions_list := incRefFirst c.conditions_list n }) :=
  check_found hn hf

/-- C9 witness: attach of "qux" against a torn-down registry still holding
the variable. -/
theorem attach_ignores_missing_root_witness :
    condition_mt_check defaultParams ⟨[⟨"qux", true, 2⟩], none⟩ "qux" true true =
      (.ok "qux",
       { (⟨[⟨"qux", true, 2⟩], none⟩ : CondNet) with
         conditions_list := incRefFirst [⟨"qux", true, 2⟩] "qux" }) :=
  attach_ignores_missing_root defaultParams ⟨[⟨"qux", true, 2⟩], none⟩ "qux"
    true true ⟨"qux", true, 2⟩ rfl (by decide) (by decide)

/-- C10: detaching the last handle of a variable after the namespace's root
directory was removed at teardown (pointer NULL) still removes the variable
from the collection and frees it, while skipping the proc-entry removal;
with unique names the variable is indeed gone afterwards. -/
theorem detach_last_after_teardown (c : CondNet) (hdl : String) (v : CondVar)
    (hf : findVar (condition_net_exit c).conditions_list hdl = some v)
    (hlast : v.refcount = 1) :
    condition_mt_destroy (condition_net_exit c) hdl =
      ⟨removeVar c.conditions_list hdl, none⟩ ∧
    ((c.conditions_list.map CondVar.name).Nodup →
      findVar (condition_mt_destroy (condition_net_exit c) hdl).conditions_list
        hdl = none) := by
  have hf2 : findVar c.conditions_list hdl = some v := hf
  have h1 : condition_mt_destroy (condition_net_exit c) hdl =
      ⟨removeVar c.conditions_list hdl, none⟩ := by
    simp [condition_mt_destroy, condition_net_exit, hf2, hlast]
  refine ⟨h1, fun hnd => ?_⟩
  rw [h1]
  exact findVar_removeVar_self hnd

/-- C10 witness: a torn-down namespace still holding "gone" at refcount 1;
its detach removes the variable and leaves the NULL root untouched. -/
theorem detach_last_after_teardown_witness :
    condition_mt_destroy (condition_net_exit ⟨[⟨"gone", true, 1⟩], some []⟩) "gone" =
      ⟨removeVar [⟨"gone", true, 1⟩] "gone", none⟩ :=
  (detach_last_after_teardown ⟨[⟨"gone", true, 1⟩], some []⟩ "gone"
    ⟨"gone", true, 1⟩ (by decide) rfl).1

end XtCondition
